import Mathlib

/-!
Verification development for the `tui-chat` crate (`src/lib.rs`).

The Rust code is shallowly embedded: a `String` buffer is modelled as the
`List Char` of its Unicode scalar values, and every byte index that the Rust
code manipulates (the cursor, `char_indices` positions, display indices) is
modelled as the corresponding UTF-8 byte offset, computed with `utf8Len`.
Stateful widgets (`ChatArea`, `InputArea`, `ChatApp`) become structures with
pure state-transition functions, one per Rust method.
-/

namespace TuiChat

/-- UTF-8 encoded byte length of a Unicode scalar value (Rust `char::len_utf8`). -/
def utf8Len (c : Char) : Nat :=
  if c.val < 0x80 then 1
  else if c.val < 0x800 then 2
  else if c.val < 0x10000 then 3
  else 4

/-- Byte length of a string represented as its list of scalar values
(Rust `str::len`). -/
def byteLen (s : List Char) : Nat := (s.map utf8Len).sum

theorem utf8Len_pos (c : Char) : 1 ≤ utf8Len c := by
  unfold utf8Len; split <;> [skip; split] <;> [omega; skip; split] <;> omega

theorem byteLen_nil : byteLen [] = 0 := rfl

theorem byteLen_cons (c : Char) (s : List Char) :
    byteLen (c :: s) = utf8Len c + byteLen s := by
  simp [byteLen]

theorem byteLen_append (s t : List Char) :
    byteLen (s ++ t) = byteLen s + byteLen t := by
  simp [byteLen]

theorem length_le_byteLen (s : List Char) : s.length ≤ byteLen s := by
  induction s with
  | nil => simp [byteLen]
  | cons c s ih =>
      have := utf8Len_pos c
      simp only [byteLen_cons, List.length_cons]
      omega

theorem byteLen_take_le (s : List Char) (k : Nat) :
    byteLen (s.take k) ≤ byteLen s := by
  conv_rhs => rw [← List.take_append_drop k s]
  rw [byteLen_append]; omega

theorem byteLen_take_succ (s : List Char) (k : Nat) (h : k < s.length) :
    byteLen (s.take (k + 1)) = byteLen (s.take k) + utf8Len s[k] := by
  have hsplit : s.take (k + 1) = s.take k ++ [s[k]] := by
    rw [List.take_succ, List.getElem?_eq_getElem h]
    rfl
  rw [hsplit, byteLen_append]
  simp [byteLen]

theorem byteLen_take_lt (s : List Char) {j k : Nat} (hjk : j < k)
    (hk : k ≤ s.length) : byteLen (s.take j) < byteLen (s.take k) := by
  induction k with
  | zero => omega
  | succ k ih =>
      have hk' : k < s.length := by omega
      rw [byteLen_take_succ s k hk']
      have := utf8Len_pos s[k]
      rcases Nat.lt_or_ge j k with h' | h'
      · have := ih h' (by omega); omega
      · have : j = k := by omega
        subst this; omega

theorem byteLen_take_mono (s : List Char) {j k : Nat} (h : j ≤ k) :
    byteLen (s.take j) ≤ byteLen (s.take k) := by
  have heq : s.take j = (s.take k).take j := by
    rw [List.take_take, Nat.min_eq_left h]
  rw [heq]
  exact byteLen_take_le _ j

/-- Number of scalar values in the prefix of `s` that spans the first `i`
bytes.  When `i` is a character boundary of `s` this is the char index at
byte offset `i`; it is used to translate the byte indices of Rust's
`String::insert` / `String::remove` / slicing into list indices. -/
def charIndexAt : List Char → Nat → Nat
  | [], _ => 0
  | c :: rest, i => if utf8Len c ≤ i then charIndexAt rest (i - utf8Len c) + 1 else 0

theorem charIndexAt_zero (s : List Char) : charIndexAt s 0 = 0 := by
  cases s with
  | nil => rfl
  | cons c rest =>
      have := utf8Len_pos c
      simp [charIndexAt]
      omega

theorem charIndexAt_byteLen_take (s : List Char) (k : Nat) :
    charIndexAt s (byteLen (s.take k)) = min k s.length := by
  induction s generalizing k with
  | nil => simp [charIndexAt, byteLen]
  | cons c rest ih =>
      cases k with
      | zero =>
          rw [List.take_zero, byteLen_nil, charIndexAt_zero]
          simp
      | succ k =>
          have : byteLen ((c :: rest).take (k + 1)) = utf8Len c + byteLen (rest.take k) := by
            simp [byteLen_cons]
          rw [this]
          have hle : utf8Len c ≤ utf8Len c + byteLen (rest.take k) := by omega
          simp only [charIndexAt, if_pos hle, Nat.add_sub_cancel_left, ih, List.length_cons]
          omega

/-- The chat-side message record (`ChatMessage` in the source): a sender and a
content string. -/
structure ChatMessage where
  sender : List Char
  content : List Char
deriving Repr, DecidableEq

/-- State of `ChatArea`: the scrollback widget.  `messageLines` is the cached
list of `(message_index, line_index)` pairs computed by the last render; the
`scrollbar_state` field of the source is pure presentation and is omitted. -/
structure ChatArea where
  messages : List ChatMessage
  messageLines : List (Nat × Nat)
  offset : Nat
  autoScroll : Bool
deriving Repr, DecidableEq

namespace ChatArea

/-- `ChatArea::new`. -/
def new : ChatArea := ⟨[], [], 0, true⟩

/-- `ChatArea::add_message`: pushes the message and unconditionally sets
`auto_scroll` to `true`. -/
def add_message (c : ChatArea) (msg : ChatMessage) : ChatArea :=
  { c with messages := c.messages ++ [msg], autoScroll := true }

/-- `ChatArea::scroll_up`: saturating decrement of the offset, always
disengages `auto_scroll`. -/
def scroll_up (c : ChatArea) (lines : Nat) : ChatArea :=
  { c with offset := c.offset - lines, autoScroll := false }

/-- `ChatArea::scroll_down`: clamps the incremented offset to
`content_length.saturating_sub(1)` (the length of the cached line list minus
one, not total minus the visible height) and re-engages `auto_scroll` exactly
when the clamped offset equals that bound. -/
def scroll_down (c : ChatArea) (lines : Nat) : ChatArea :=
  let contentLength := c.messageLines.length
  let maxScroll := contentLength - 1
  let newOffset := min (c.offset + lines) maxScroll
  { c with offset := newOffset,
           autoScroll := if newOffset = maxScroll then true else c.autoScroll }

end ChatArea

/-- The offset update performed by `ChatArea::render` (lines 84-90 of the
source) once the wrapped line list has been recomputed: `totalLines` is
`message_lines.len()` and `visibleHeight` the inner height of the area.  The
actual wrapped lines are produced by the external `textwrap` crate, so the
update is modelled as a function of their count. -/
def chatRenderOffset (totalLines visibleHeight offset : Nat) (autoScroll : Bool) : Nat :=
  let maxOffset := totalLines - visibleHeight
  let offset' := if autoScroll then maxOffset else offset
  min offset' maxOffset

/-- `InputArea::MAX_DISPLAY_LINES`. -/
def MAX_DISPLAY_LINES : Nat := 10

/-- State of `InputArea`: the typed buffer (as its scalar values), the cursor
as a byte offset into the buffer, and the display scroll offset. -/
structure InputArea where
  buffer : List Char
  cursor : Nat
  offset : Nat
deriving Repr, DecidableEq

namespace InputArea

/-- `InputArea::new`. -/
def new : InputArea := ⟨[], 0, 0⟩

/-- `InputArea::insert_char`: clamps a stale cursor to the buffer byte length,
splices the scalar value in at the cursor's byte position (Rust
`String::insert`), and advances the cursor by its encoded length. -/
def insert_char (a : InputArea) (ch : Char) : InputArea :=
  let c := min a.cursor (byteLen a.buffer)
  let k := charIndexAt a.buffer c
  { a with buffer := a.buffer.take k ++ ch :: a.buffer.drop k
           cursor := c + utf8Len ch }

/-- The `char_indices` scan shared by `backspace` and `cursor_left`: walks the
character start offsets `0, u0, u0+u1, ...` and keeps the last one strictly
below `c`.  `pos` is the running start offset, `acc` the last start seen. -/
def prevStartAux : List Char → Nat → Nat → Nat → Nat
  | [], _, _, acc => acc
  | ch :: rest, pos, c, acc =>
      if pos ≥ c then acc else prevStartAux rest (pos + utf8Len ch) c pos

/-- Byte offset of the start of the character immediately before byte offset
`c` (0 if there is none): the `prev_start` computed in `InputArea::backspace`
and `InputArea::cursor_left`. -/
def prevStart (s : List Char) (c : Nat) : Nat := prevStartAux s 0 c 0

/-- `InputArea::backspace`: removes the scalar value starting at `prevStart`
(Rust `String::remove`) and moves the cursor there; no-op at offset 0. -/
def backspace (a : InputArea) : InputArea :=
  if a.cursor > 0 then
    let p := prevStart a.buffer a.cursor
    let k := charIndexAt a.buffer p
    { a with buffer := a.buffer.take k ++ a.buffer.drop (k + 1), cursor := p }
  else a

/-- `InputArea::cursor_left`. -/
def cursor_left (a : InputArea) : InputArea :=
  if a.cursor > 0 then { a with cursor := prevStart a.buffer a.cursor } else a

/-- The `char_indices().find(|(i, _)| *i > cursor)` scan of
`InputArea::cursor_right`: first character start offset strictly greater than
`c`, if any. -/
def nextStartAux : List Char → Nat → Nat → Option Nat
  | [], _, _ => none
  | ch :: rest, pos, c => if pos > c then some pos else nextStartAux rest (pos + utf8Len ch) c

/-- `InputArea::cursor_right`. -/
def cursor_right (a : InputArea) : InputArea :=
  if a.cursor < byteLen a.buffer then
    match nextStartAux a.buffer 0 a.cursor with
    | some i => { a with cursor := i }
    | none => { a with cursor := byteLen a.buffer }
  else a

end InputArea

/-- `buffer.split('\n')` (Rust `str::split`): the logical lines of the
buffer.  Like Rust's `split`, `List.splitOn` yields `[[]]` on the empty
buffer and preserves empty segments. -/
def lineSplit (buf : List Char) : List (List Char) := buf.splitOn '\n'

/-- Byte offset at which logical line `j` starts:
`sum of lines[i].len() + 1 for i < j`, as computed by the `prev_line_start` /
`next_line_start` loops of `cursor_up` / `cursor_down`. -/
def lineStart (ls : List (List Char)) (j : Nat) : Nat :=
  ((ls.take j).map (fun l => byteLen l + 1)).sum

/-- The loop of `InputArea::find_current_line_col`: find the first logical
line whose cumulative byte span reaches the cursor `c`; `pos` is the running
byte offset of the current line's start and `i` its index.  The column is the
number of scalar values of `buffer[pos..c]`, i.e. `charIndexAt line (c - pos)`
for a boundary cursor.  If the loop runs out of lines the initial `(0, 0)` is
returned, as in the source. -/
def findLineColAux : List (List Char) → Nat → Nat → Nat → Nat × Nat
  | [], _, _, _ => (0, 0)
  | line :: rest, pos, c, i =>
      if pos + byteLen line ≥ c then (i, charIndexAt line (c - pos))
      else findLineColAux rest (pos + byteLen line + 1) c (i + 1)

namespace InputArea

/-- `InputArea::find_current_line_col`. -/
def find_current_line_col (a : InputArea) : Nat × Nat :=
  findLineColAux (lineSplit a.buffer) 0 a.cursor 0

/-- `InputArea::cursor_up`: move to the same column (clamped to the scalar
count of the line above) on the previous logical line. -/
def cursor_up (a : InputArea) : InputArea :=
  let lines := lineSplit a.buffer
  if lines.isEmpty then a
  else
    let lc := a.find_current_line_col
    if lc.1 > 0 then
      let prevLine := lines.getD (lc.1 - 1) []
      let newCol := min lc.2 prevLine.length
      let prevLineStart := lineStart lines (lc.1 - 1)
      { a with cursor := prevLineStart + byteLen (prevLine.take newCol) }
    else a

/-- `InputArea::cursor_down`: move to the same column (clamped) on the next
logical line. -/
def cursor_down (a : InputArea) : InputArea :=
  let lines := lineSplit a.buffer
  if lines.isEmpty then a
  else
    let lc := a.find_current_line_col
    if lc.1 < lines.length - 1 then
      let nextLine := lines.getD (lc.1 + 1) []
      let newCol := min lc.2 nextLine.length
      let nextLineStart := lineStart lines (lc.1 + 1)
      { a with cursor := nextLineStart + byteLen (nextLine.take newCol) }
    else a

/-- `InputArea::newline`. -/
def newline (a : InputArea) : InputArea := a.insert_char '\n'

/-- `InputArea::submit`: returns the whole buffer and resets the state. -/
def submit (a : InputArea) : List Char × InputArea :=
  (a.buffer, { buffer := [], cursor := 0, offset := 0 })

/-- `InputArea::scroll_up`: saturating subtraction on the offset. -/
def scroll_up (a : InputArea) (lines : Nat) : InputArea :=
  { a with offset := a.offset - lines }

/-- `InputArea::scroll_down`: plain addition, no clamping. -/
def scroll_down (a : InputArea) (lines : Nat) : InputArea :=
  { a with offset := a.offset + lines }

/-- `InputArea::calculate_display_lines`.  The source computes
`(line.len() as f32 / effective_width as f32).ceil() as usize` — `line.len()`
is the line's length in UTF-8 **bytes** — which is modelled by the exact
ceiling division `(bytes + w - 1) / w` (the `f32` arithmetic is exact for all
interactive buffer sizes, both operands being below `2^24`). -/
def calculate_display_lines (a : InputArea) (width : Nat) : Nat :=
  let effectiveWidth := width - 4
  if effectiveWidth = 0 then 2
  else
    let logicalLines := lineSplit a.buffer
    let totalLines :=
      (logicalLines.map
        (fun line => max ((byteLen line + effectiveWidth - 1) / effectiveWidth) 1)).sum
    min totalLines MAX_DISPLAY_LINES + 2

end InputArea

/-- The per-character expansion of
`format!("> {}", buffer.replace('\n', "\n> "))`: every line break is followed
by a fresh `"> "` marker. -/
def nlExpand (c : Char) : List Char :=
  if c = '\n' then ['\n', '>', ' '] else [c]

/-- `full_display` as built in `InputArea::render` and `ChatApp::render`:
the prompt marker followed by the buffer with every line break re-prefixed. -/
def fullDisplay (buf : List Char) : List Char :=
  '>' :: ' ' :: buf.flatMap nlExpand

/-- Strip one trailing carriage return (the `\r` of a `\r\n` line ending). -/
def stripTrailingCR (l : List Char) : List Char :=
  if l.getLast? = some '\r' then l.dropLast else l

/-- Rust `str::lines()`: split on `'\n'`; every segment that was terminated by
a `'\n'` additionally loses one trailing `'\r'`; a final empty segment (from a
trailing `'\n'`) is dropped; the empty string yields no lines. -/
def rustLines (s : List Char) : List (List Char) :=
  if s = [] then []
  else
    let parts := s.splitOn '\n'
    let lastPart := parts.getLastD []
    parts.dropLast.map stripTrailingCR ++ (if lastPart = [] then [] else [lastPart])

namespace InputArea

/-- `InputArea::calculate_display_index`: the cursor's byte offset within
`full_display` — the 2-byte marker, plus the cursor offset, plus 2 bytes of
re-inserted marker per line break before the cursor (`count_nl` counts `'\n'`
in the byte-prefix `buffer[..cursor]`). -/
def calculate_display_index (a : InputArea) : Nat :=
  let countNl := (a.buffer.take (charIndexAt a.buffer a.cursor)).count '\n'
  2 + a.cursor + countNl * 2

end InputArea

/-- The loop of `InputArea::calculate_cursor_line`: walk the display text one
scalar value at a time; return the line counter as soon as the running byte
offset reaches the display index, counting a line break after the check. -/
def calcCursorLineAux : List Char → Nat → Nat → Nat → Nat
  | [], _, _, line => line
  | ch :: rest, byteIndex, displayIndex, line =>
      if byteIndex ≥ displayIndex then line
      else calcCursorLineAux rest (byteIndex + utf8Len ch) displayIndex
             (if ch = '\n' then line + 1 else line)

/-- `InputArea::calculate_cursor_line`. -/
def calculate_cursor_line (display : List Char) (displayIndex : Nat) : Nat :=
  calcCursorLineAux display 0 displayIndex 0

/-- The offset update performed by `InputArea::render` (the auto-scroll that
keeps the cursor's visual line inside the `MAX_DISPLAY_LINES`-high window,
followed by the clamp to `max_offset`). -/
def inputRenderOffset (a : TuiChat.InputArea) : Nat :=
  let fd := fullDisplay a.buffer
  let totalLines := (rustLines fd).length
  let cursorLine := calculate_cursor_line fd a.calculate_display_index
  let maxOffset := totalLines - MAX_DISPLAY_LINES
  let offset' :=
    if cursorLine < a.offset then cursorLine
    else if cursorLine ≥ a.offset + MAX_DISPLAY_LINES then
      cursorLine - (MAX_DISPLAY_LINES - 1)
    else a.offset
  min offset' maxOffset

/-- The loop of `ChatApp::calculate_cursor_pos`: walk the display text,
tracking `(line, column)`; produce the position once the running byte offset
equals the target index (also checked once after the walk), otherwise report
no position.  The source casts the counters to `u16`; the cast cannot change
whether a position is produced. -/
def calcCursorPosAux : List Char → Nat → Nat → Nat → Nat → Option (Nat × Nat)
  | [], byteIndex, displayIndex, line, col =>
      if byteIndex = displayIndex then some (line, col) else none
  | ch :: rest, byteIndex, displayIndex, line, col =>
      if byteIndex = displayIndex then some (line, col)
      else if ch = '\n' then
        calcCursorPosAux rest (byteIndex + utf8Len ch) displayIndex (line + 1) 0
      else
        calcCursorPosAux rest (byteIndex + utf8Len ch) displayIndex line (col + 1)

/-- `ChatApp::calculate_cursor_pos`. -/
def calculate_cursor_pos (display : List Char) (displayIndex : Nat) : Option (Nat × Nat) :=
  calcCursorPosAux display 0 displayIndex 0 0

/-- The cursor-position computation of `ChatApp::render` (lines 417-443 of the
source), as a function of the input-area state it reads: rebuild
`full_display`, clamp the offset, slice the visible lines, join them with
`'\n'`, subtract the byte length of the skipped lines from the display index,
and project.  The source then adds the panel origin plus 1 to both
coordinates, which does not change whether a position is produced. -/
def appCursorPos (a : TuiChat.InputArea) : Option (Nat × Nat) :=
  let fd := fullDisplay a.buffer
  let lines := rustLines fd
  let totalLines := lines.length
  let maxOffset := totalLines - 10
  let offset := min a.offset maxOffset
  let stop := min (offset + 10) totalLines
  let visibleLines := (lines.drop offset).take (stop - offset)
  let display := List.intercalate ['\n'] visibleLines
  let displayIndex := a.calculate_display_index
  let startByte := ((lines.take offset).map (fun l => byteLen l + 1)).sum
  calculate_cursor_pos display (displayIndex - startByte)

/-- The `ChatApp::render` pass restricted to what determines
`get_cursor_pos()`: `InputArea::render` first updates the input offset, then
the cursor position is computed from the updated state. -/
def appRenderCursor (a : TuiChat.InputArea) : Option (Nat × Nat) :=
  appCursorPos { a with offset := inputRenderOffset a }

/-- `crossterm::event::KeyCode`, restricted to the variants `ChatApp::on_key`
distinguishes; every other variant falls into the wildcard arm. -/
inductive KeyCode where
  | enter | pageUp | pageDown | esc | char (c : Char)
  | backKey | left | right | up | down | otherKey
deriving Repr, DecidableEq

/-- `crossterm::event::KeyEventKind`. -/
inductive KeyEventKind where
  | press | release | repeated
deriving Repr, DecidableEq

/-- The two modifier bits `ChatApp::on_key` inspects
(`KeyModifiers::contains(SHIFT)` / `contains(CONTROL)`). -/
structure KeyModifiers where
  shift : Bool
  control : Bool
deriving Repr, DecidableEq

/-- `crossterm::event::KeyEvent`, restricted to the fields the app reads. -/
structure KeyEvent where
  code : KeyCode
  modifiers : KeyModifiers
  kind : KeyEventKind
deriving Repr, DecidableEq

/-- Rust `str::trim` restricted to the whitespace actually producible here
(ASCII whitespace); only the emptiness of the result is ever used. -/
def rustTrim (s : List Char) : List Char :=
  ((s.dropWhile Char.isWhitespace).reverse.dropWhile Char.isWhitespace).reverse

/-- State of `ChatApp`. -/
structure ChatApp where
  chat_area : ChatArea
  input_area : InputArea
  should_quit : Bool
  cursor_pos : Option (Nat × Nat)
deriving Repr, DecidableEq

namespace ChatApp

/-- `ChatApp::new`. -/
def new : ChatApp := ⟨ChatArea.new, InputArea.new, false, none⟩

/-- `ChatApp::on_key`, following the source's match arms in order.  The
`Esc | Char('c')` arm carries the `CONTROL` guard, so an unguarded `Esc`
falls through to the wildcard and an unguarded `Char(c)` (including `'c'`)
to the insert arm. -/
def on_key (app : ChatApp) (key : KeyEvent) : ChatApp :=
  if key.kind ≠ KeyEventKind.press then app
  else
    match key.code with
    | .enter =>
        if key.modifiers.shift then
          { app with input_area := app.input_area.newline }
        else
          let sub := app.input_area.submit
          if rustTrim sub.1 ≠ [] then
            { app with
                input_area := sub.2
                chat_area :=
                  (app.chat_area.add_message ⟨"User".toList, sub.1⟩).add_message
                    ⟨"AI".toList, "Hello! This is a simulated response.".toList⟩ }
          else { app with input_area := sub.2 }
    | .pageUp => { app with chat_area := app.chat_area.scroll_up 5 }
    | .pageDown => { app with chat_area := app.chat_area.scroll_down 5 }
    | .esc =>
        if key.modifiers.control then { app with should_quit := true } else app
    | .char c =>
        if key.modifiers.control ∧ c = 'c' then { app with should_quit := true }
        else { app with input_area := app.input_area.insert_char c }
    | .backKey => { app with input_area := app.input_area.backspace }
    | .left => { app with input_area := app.input_area.cursor_left }
    | .right => { app with input_area := app.input_area.cursor_right }
    | .up => { app with input_area := app.input_area.cursor_up }
    | .down => { app with input_area := app.input_area.cursor_down }
    | .otherKey => app

end ChatApp

/-- The mutating operations of `InputArea` quantified over by the buffer
invariant. -/
inductive Op where
  | insert (ch : Char) | backKey | left | right | up | down | newline | submitOp
deriving Repr, DecidableEq

/-- Apply one operation to an `InputArea` (the returned text of `submit` is
discarded). -/
def applyOp (a : InputArea) : Op → InputArea
  | .insert ch => a.insert_char ch
  | .backKey => a.backspace
  | .left => a.cursor_left
  | .right => a.cursor_right
  | .up => a.cursor_up
  | .down => a.cursor_down
  | .newline => a.newline
  | .submitOp => a.submit.2

/-- The cursor invariant: the cursor is the byte length of some scalar-value
prefix of the buffer, i.e. a valid UTF-8 boundary with
`0 ≤ cursor ≤ len(buffer)`. -/
def CursorOK (a : InputArea) : Prop :=
  ∃ k, k ≤ a.buffer.length ∧ a.cursor = byteLen (a.buffer.take k)

/-- Modelled from the spec: the §4.2 wrapping policy for one explicit-break
segment.  The wrapping that actually produces the scrollback's visual lines is
performed by the external `textwrap` crate (`ChatArea::render`), and the input
panel's by the host framework's paragraph wrap — neither crate's source is
part of this repository.  Per the spec: greedily pack runs of at most `width`
scalar values; an empty segment yields one empty visual line; `width = 0` is
"cannot wrap" and must be special-cased by the caller. -/
def wrapSeg (width : Nat) (seg : List Char) : List (List Char) :=
  if width = 0 ∨ seg.length ≤ width then [seg]
  else seg.take width :: wrapSeg width (seg.drop width)
termination_by seg.length
decreasing_by
  simp only [List.length_drop]
  omega

/-- Modelled from the spec: `wrap(text, width)` — split on explicit line
breaks first, wrap each segment independently, concatenate the visual lines
in order. -/
def wrap (text : List Char) (width : Nat) : List (List Char) :=
  ((text.splitOn '\n').map (wrapSeg width)).flatten

/-- The claim's reading of `InputArea::calculate_display_lines`, with each
logical line measured in scalar values; the source measures lines in UTF-8
bytes (`line.len()`). -/
def calculate_display_lines_spec (a : InputArea) (width : Nat) : Nat :=
  let effectiveWidth := width - 4
  if effectiveWidth = 0 then 2
  else
    let totalLines :=
      ((lineSplit a.buffer).map
        (fun line => max ((line.length + effectiveWidth - 1) / effectiveWidth) 1)).sum
    min totalLines MAX_DISPLAY_LINES + 2

/-- The claim's reading of `ChatArea::scroll_down`, stated against a visible
capacity: clamp the offset to `max(0, total_visual_lines - visibleCapacity)`
and re-engage `auto_follow` iff the result lands exactly there; the source
uses `content_length.saturating_sub(1)` instead. -/
def scroll_down_spec (c : ChatArea) (visibleCapacity n : Nat) : ChatArea :=
  let maxScroll := c.messageLines.length - visibleCapacity
  let newOffset := min (c.offset + n) maxScroll
  { c with offset := newOffset,
           autoScroll := if newOffset = maxScroll then true else c.autoScroll }

theorem cursorOK_le {a : InputArea} (h : CursorOK a) :
    a.cursor ≤ byteLen a.buffer := by
  obtain ⟨k, _, hc⟩ := h
  rw [hc]
  exact byteLen_take_le a.buffer k

theorem prevStartAux_of_ge (s : List Char) (pos c acc : Nat) (h : pos ≥ c) :
    InputArea.prevStartAux s pos c acc = acc := by
  cases s <;> simp [InputArea.prevStartAux, h]

theorem prevStartAux_boundary (s : List Char) :
    ∀ (j pos acc : Nat), 0 < j → j ≤ s.length →
      InputArea.prevStartAux s pos (pos + byteLen (s.take j)) acc
        = pos + byteLen (s.take (j - 1)) := by
  induction s with
  | nil =>
      intro j pos acc hj0 hj
      simp at hj
      omega
  | cons ch rest ih =>
      intro j pos acc hj0 hj
      obtain ⟨j', rfl⟩ : ∃ j', j = j' + 1 := ⟨j - 1, by omega⟩
      have h1 : 1 ≤ utf8Len ch := utf8Len_pos ch
      have hj' : j' ≤ rest.length := by
        simp only [List.length_cons] at hj
        omega
      simp only [List.take_succ_cons, byteLen_cons, Nat.add_sub_cancel]
      rw [InputArea.prevStartAux, if_neg (by omega)]
      cases Nat.eq_zero_or_pos j' with
      | inl h0 =>
          subst h0
          simp only [List.take_zero, byteLen_nil, Nat.add_zero]
          exact prevStartAux_of_ge rest _ _ _ (by omega)
      | inr hpos =>
          obtain ⟨j'', rfl⟩ : ∃ j'', j' = j'' + 1 := ⟨j' - 1, by omega⟩
          have harith : pos + (utf8Len ch + byteLen (rest.take (j'' + 1)))
              = (pos + utf8Len ch) + byteLen (rest.take (j'' + 1)) := by omega
          rw [harith, ih (j'' + 1) (pos + utf8Len ch) pos hpos hj']
          simp only [Nat.add_sub_cancel, List.take_succ_cons, byteLen_cons]
          omega

theorem prevStart_boundary (s : List Char) (j : Nat) (hj0 : 0 < j) (hj : j ≤ s.length) :
    InputArea.prevStart s (byteLen (s.take j)) = byteLen (s.take (j - 1)) := by
  have h := prevStartAux_boundary s j 0 0 hj0 hj
  simpa [InputArea.prevStart] using h

theorem nextStartAux_of_gt (s : List Char) (pos c : Nat) (h : pos > c) :
    InputArea.nextStartAux s pos c = if s = [] then none else some pos := by
  cases s <;> simp [InputArea.nextStartAux, h]

theorem nextStartAux_boundary (s : List Char) :
    ∀ (k pos : Nat), k < s.length →
      InputArea.nextStartAux s pos (pos + byteLen (s.take k))
        = if k + 1 < s.length then some (pos + byteLen (s.take (k + 1))) else none := by
  induction s with
  | nil =>
      intro k pos h
      simp at h
  | cons ch rest ih =>
      intro k pos h
      have h1 : 1 ≤ utf8Len ch := utf8Len_pos ch
      rw [InputArea.nextStartAux, if_neg (by omega)]
      cases k with
      | zero =>
          simp only [List.take_zero, byteLen_nil, Nat.add_zero]
          rw [nextStartAux_of_gt rest _ _ (by omega)]
          cases rest with
          | nil => simp
          | cons b t =>
              simp [byteLen_cons, byteLen_nil]
      | succ k' =>
          have hk' : k' < rest.length := by
            simp only [List.length_cons] at h
            omega
          simp only [List.take_succ_cons, byteLen_cons]
          have harith : pos + (utf8Len ch + byteLen (rest.take k'))
              = (pos + utf8Len ch) + byteLen (rest.take k') := by omega
          rw [harith, ih k' (pos + utf8Len ch) hk']
          simp only [List.length_cons]
          by_cases hlt : k' + 1 < rest.length
          · rw [if_pos hlt, if_pos (by omega)]
            exact congrArg some (by omega)
          · rw [if_neg hlt, if_neg (by omega)]

theorem findLineColAux_fst (ls : List (List Char)) :
    ∀ (pos c i : Nat),
      (findLineColAux ls pos c i).1 < i + ls.length ∨ (findLineColAux ls pos c i).1 = 0 := by
  induction ls with
  | nil =>
      intro pos c i
      right
      rfl
  | cons line rest ih =>
      intro pos c i
      rw [findLineColAux]
      split
      · left
        simp
      · rcases ih (pos + byteLen line + 1) c (i + 1) with h | h
        · left
          simp only [List.length_cons]
          omega
        · right
          exact h

theorem intercalate_nl_nil : List.intercalate ['\n'] ([] : List (List Char)) = [] := rfl

theorem intercalate_nl_single (l : List Char) : List.intercalate ['\n'] [l] = l := by
  simp [List.intercalate]

theorem intercalate_nl_cons₂ (a b : List Char) (t : List (List Char)) :
    List.intercalate ['\n'] (a :: b :: t) = a ++ '\n' :: List.intercalate ['\n'] (b :: t) := by
  simp [List.intercalate, List.intersperse]

theorem utf8Len_newline : utf8Len '\n' = 1 := rfl

theorem splitOn_nl_ne_nil (s : List Char) : s.splitOn '\n' ≠ [] := by
  intro hcontra
  have h := List.intercalate_splitOn s '\n'
  rw [hcontra] at h
  rw [intercalate_nl_nil] at h
  rw [← h] at hcontra
  simp [List.splitOn_nil] at hcontra

/-- Any `(line, column)` position inside a line list is a byte boundary of the
`'\n'`-joined text: the byte offset `lineStart ls j + byteLen (line_j.take m)`
is the byte length of some scalar-value prefix. -/
theorem intercalate_boundary (ls : List (List Char)) :
    ∀ (j m : Nat), j < ls.length → m ≤ (ls.getD j []).length →
      ∃ k ≤ (List.intercalate ['\n'] ls).length,
        lineStart ls j + byteLen ((ls.getD j []).take m)
          = byteLen ((List.intercalate ['\n'] ls).take k) := by
  induction ls with
  | nil =>
      intro j m hj _
      simp at hj
  | cons l rest ih =>
      intro j m hj hm
      cases j with
      | zero =>
          refine ⟨m, ?_, ?_⟩
          · simp only [List.getD_eq_getElem (l :: rest) [] hj, List.getElem_cons_zero] at hm
            cases rest with
            | nil =>
                rw [intercalate_nl_single]
                omega
            | cons b t =>
                rw [intercalate_nl_cons₂]
                simp only [List.length_append, List.length_cons]
                omega
          · simp only [lineStart, List.take_zero, List.map_nil, List.sum_nil, Nat.zero_add]
            simp only [List.getD_eq_getElem (l :: rest) [] hj, List.getElem_cons_zero] at hm ⊢
            cases rest with
            | nil =>
                rw [intercalate_nl_single]
            | cons b t =>
                rw [intercalate_nl_cons₂, List.take_append_of_le_length hm]
      | succ j' =>
          have hrest : j' < rest.length := by
            simp only [List.length_cons] at hj
            omega
          obtain ⟨b, t, rfl⟩ : ∃ b t, rest = b :: t := by
            cases rest with
            | nil => simp at hrest
            | cons b t => exact ⟨b, t, rfl⟩
          have hm' : m ≤ ((b :: t).getD j' []).length := by
            simpa using hm
          obtain ⟨k', hk', heq⟩ := ih j' m hrest hm'
          refine ⟨l.length + (1 + k'), ?_, ?_⟩
          · rw [intercalate_nl_cons₂]
            simp only [List.length_append, List.length_cons]
            omega
          · rw [intercalate_nl_cons₂]
            have hsplit : (l ++ '\n' :: List.intercalate ['\n'] (b :: t)).take (l.length + (1 + k'))
                = l ++ '\n' :: (List.intercalate ['\n'] (b :: t)).take k' := by
              rw [List.take_append, Nat.add_comm 1 k', List.take_succ_cons]
            rw [hsplit, byteLen_append, byteLen_cons, utf8Len_newline]
            have hls : lineStart (l :: b :: t) (j' + 1)
                = (byteLen l + 1) + lineStart (b :: t) j' := by
              simp only [lineStart, List.take_succ_cons, List.map_cons, List.sum_cons]
            rw [hls]
            have hgd : (l :: b :: t).getD (j' + 1) [] = (b :: t).getD j' [] := by
              simp
            rw [hgd]
            omega

/-- The buffer is recovered from its logical lines. -/
theorem lineSplit_join (buf : List Char) :
    List.intercalate ['\n'] (lineSplit buf) = buf :=
  List.intercalate_splitOn buf '\n'

theorem cursorOK_new : CursorOK InputArea.new := ⟨0, by simp [InputArea.new], rfl⟩

theorem cursorOK_insert_char {a : InputArea} (ch : Char) (h : CursorOK a) :
    CursorOK (a.insert_char ch) := by
  obtain ⟨k, hk, hc⟩ := h
  have hcle : a.cursor ≤ byteLen a.buffer := cursorOK_le ⟨k, hk, hc⟩
  have hmin : min a.cursor (byteLen a.buffer) = a.cursor := Nat.min_eq_left hcle
  have hidx : charIndexAt a.buffer a.cursor = k := by
    rw [hc, charIndexAt_byteLen_take, Nat.min_eq_left hk]
  have hlen : (a.buffer.take k).length = k := by
    rw [List.length_take, Nat.min_eq_left hk]
  refine ⟨k + 1, ?_, ?_⟩
  · simp only [InputArea.insert_char, hmin, hidx, List.length_append, List.length_cons,
      List.length_drop, hlen]
    omega
  · simp only [InputArea.insert_char, hmin, hidx]
    have htake : (a.buffer.take k ++ ch :: a.buffer.drop k).take (k + 1)
        = a.buffer.take k ++ [ch] := by
      conv_lhs => rw [show k + 1 = (a.buffer.take k).length + 1 by rw [hlen]]
      rw [List.take_append]
      rfl
    rw [htake, byteLen_append, hc]
    simp [byteLen]

theorem cursorOK_backspace {a : InputArea} (h : CursorOK a) :
    CursorOK a.backspace := by
  obtain ⟨k, hk, hc⟩ := h
  rw [InputArea.backspace]
  by_cases hpos : a.cursor > 0
  · rw [if_pos hpos]
    have hk0 : 0 < k := by
      rcases Nat.eq_zero_or_pos k with h0 | h0
      · subst h0
        simp [byteLen_nil] at hc
        omega
      · exact h0
    have hprev : InputArea.prevStart a.buffer a.cursor = byteLen (a.buffer.take (k - 1)) := by
      rw [hc]
      exact prevStart_boundary a.buffer k hk0 hk
    have hidx : charIndexAt a.buffer (InputArea.prevStart a.buffer a.cursor) = k - 1 := by
      rw [hprev, charIndexAt_byteLen_take, Nat.min_eq_left (by omega)]
    have hlen : (a.buffer.take (k - 1)).length = k - 1 := by
      rw [List.length_take, Nat.min_eq_left (by omega)]
    refine ⟨k - 1, ?_, ?_⟩
    · simp only [hidx, List.length_append, List.length_take, List.length_drop]
      omega
    · simp only [hidx]
      have htake : (a.buffer.take (k - 1) ++ a.buffer.drop (k - 1 + 1)).take (k - 1)
          = a.buffer.take (k - 1) := by
        rw [List.take_append_of_le_length (by rw [hlen]), List.take_take]
        simp
      rw [htake, hprev]
  · rw [if_neg hpos]
    exact ⟨k, hk, hc⟩

theorem cursorOK_cursor_left {a : InputArea} (h : CursorOK a) :
    CursorOK a.cursor_left := by
  obtain ⟨k, hk, hc⟩ := h
  rw [InputArea.cursor_left]
  by_cases hpos : a.cursor > 0
  · rw [if_pos hpos]
    have hk0 : 0 < k := by
      rcases Nat.eq_zero_or_pos k with h0 | h0
      · subst h0
        simp [byteLen_nil] at hc
        omega
      · exact h0
    refine ⟨k - 1, ?_, ?_⟩
    · show k - 1 ≤ a.buffer.length
      omega
    · show InputArea.prevStart a.buffer a.cursor = byteLen (a.buffer.take (k - 1))
      rw [hc]
      exact prevStart_boundary a.buffer k hk0 hk
  · rw [if_neg hpos]
    exact ⟨k, hk, hc⟩

theorem cursorOK_cursor_right {a : InputArea} (h : CursorOK a) :
    CursorOK a.cursor_right := by
  obtain ⟨k, hk, hc⟩ := h
  rw [InputArea.cursor_right]
  by_cases hlt : a.cursor < byteLen a.buffer
  · rw [if_pos hlt]
    have hklt : k < a.buffer.length := by
      rcases Nat.lt_or_ge k a.buffer.length with h' | h'
      · exact h'
      · exfalso
        rw [hc, List.take_of_length_le h'] at hlt
        omega
    have hnext : InputArea.nextStartAux a.buffer 0 a.cursor
        = if k + 1 < a.buffer.length then some (byteLen (a.buffer.take (k + 1))) else none := by
      rw [hc]
      have := nextStartAux_boundary a.buffer k 0 hklt
      simpa using this
    by_cases hk1 : k + 1 < a.buffer.length
    · rw [hnext, if_pos hk1]
      show CursorOK { a with cursor := byteLen (a.buffer.take (k + 1)) }
      exact ⟨k + 1, show k + 1 ≤ a.buffer.length by omega, rfl⟩
    · rw [hnext, if_neg hk1]
      show CursorOK { a with cursor := byteLen a.buffer }
      exact ⟨a.buffer.length, show a.buffer.length ≤ a.buffer.length from le_refl _, by simp⟩
  · rw [if_neg hlt]
    exact ⟨k, hk, hc⟩

theorem cursorOK_cursor_up {a : InputArea} (hok : CursorOK a) : CursorOK a.cursor_up := by
  rw [InputArea.cursor_up]
  by_cases hempty : (lineSplit a.buffer).isEmpty
  · rw [if_pos hempty]
    exact hok
  · rw [if_neg hempty]
    set lc := a.find_current_line_col with hlc
    by_cases hj : lc.1 > 0
    · rw [if_pos hj]
      have hjlt : lc.1 < (lineSplit a.buffer).length := by
        have hfst := findLineColAux_fst (lineSplit a.buffer) 0 a.cursor 0
        rw [show findLineColAux (lineSplit a.buffer) 0 a.cursor 0 = lc from by rw [hlc]; rfl] at hfst
        rcases hfst with h | h
        · simpa using h
        · omega
      have hm : min lc.2 ((lineSplit a.buffer).getD (lc.1 - 1) []).length
          ≤ ((lineSplit a.buffer).getD (lc.1 - 1) []).length := Nat.min_le_right _ _
      obtain ⟨k, hkle, heq⟩ :=
        intercalate_boundary (lineSplit a.buffer) (lc.1 - 1)
          (min lc.2 ((lineSplit a.buffer).getD (lc.1 - 1) []).length) (by omega) hm
      rw [lineSplit_join] at hkle heq
      exact ⟨k, hkle, heq⟩
    · rw [if_neg hj]
      exact hok

theorem cursorOK_cursor_down {a : InputArea} (hok : CursorOK a) : CursorOK a.cursor_down := by
  rw [InputArea.cursor_down]
  by_cases hempty : (lineSplit a.buffer).isEmpty
  · rw [if_pos hempty]
    exact hok
  · rw [if_neg hempty]
    set lc := a.find_current_line_col with hlc
    by_cases hj : lc.1 < (lineSplit a.buffer).length - 1
    · rw [if_pos hj]
      have hlen0 : 0 < (lineSplit a.buffer).length :=
        List.length_pos.mpr (splitOn_nl_ne_nil a.buffer)
      have hm : min lc.2 ((lineSplit a.buffer).getD (lc.1 + 1) []).length
          ≤ ((lineSplit a.buffer).getD (lc.1 + 1) []).length := Nat.min_le_right _ _
      obtain ⟨k, hkle, heq⟩ :=
        intercalate_boundary (lineSplit a.buffer) (lc.1 + 1)
          (min lc.2 ((lineSplit a.buffer).getD (lc.1 + 1) []).length) (by omega) hm
      rw [lineSplit_join] at hkle heq
      exact ⟨k, hkle, heq⟩
    · rw [if_neg hj]
      exact hok

theorem cursorOK_applyOp {a : InputArea} (op : Op) (h : CursorOK a) :
    CursorOK (applyOp a op) := by
  cases op with
  | insert ch => exact cursorOK_insert_char ch h
  | backKey => exact cursorOK_backspace h
  | left => exact cursorOK_cursor_left h
  | right => exact cursorOK_cursor_right h
  | up => exact cursorOK_cursor_up h
  | down => exact cursorOK_cursor_down h
  | newline => exact cursorOK_insert_char '\n' h
  | submitOp => exact ⟨0, by simp [InputArea.submit], rfl⟩

theorem cursorOK_foldl (ops : List Op) {a : InputArea} (h : CursorOK a) :
    CursorOK (ops.foldl applyOp a) := by
  induction ops generalizing a with
  | nil => exact h
  | cons op rest ih => exact ih (cursorOK_applyOp op h)

theorem wrapSeg_flatten (width : Nat) (seg : List Char) :
    (wrapSeg width seg).flatten = seg := by
  induction seg using wrapSeg.induct width with
  | case1 s h =>
      rw [wrapSeg, if_pos h]
      simp
  | case2 s h ih =>
      rw [wrapSeg, if_neg h]
      simp only [List.flatten_cons, ih, List.take_append_drop]

theorem wrapSeg_line_le (width : Nat) (hw : 0 < width) (seg : List Char) :
    ∀ l ∈ wrapSeg width seg, l.length ≤ width := by
  induction seg using wrapSeg.induct width with
  | case1 s h =>
      intro l hl
      rw [wrapSeg, if_pos h] at hl
      simp only [List.mem_singleton] at hl
      subst hl
      rcases h with h | h
      · omega
      · exact h
  | case2 s h ih =>
      intro l hl
      rw [wrapSeg, if_neg h] at hl
      rcases List.mem_cons.mp hl with rfl | hl
      · simp [List.length_take]
      · exact ih l hl

theorem wrapSeg_count (width : Nat) (hw : 0 < width) (seg : List Char) :
    (wrapSeg width seg).length = max 1 ((seg.length + width - 1) / width) := by
  induction seg using wrapSeg.induct width with
  | case1 s h =>
      rw [wrapSeg, if_pos h]
      rcases h with h | h
      · omega
      · have hd : (s.length + width - 1) / width < 2 := by
          rw [Nat.div_lt_iff_lt_mul hw]
          omega
        simp only [List.length_singleton]
        omega
  | case2 s h ih =>
      rw [wrapSeg, if_neg h]
      push_neg at h
      obtain ⟨hw0, hlen⟩ := h
      simp only [List.length_cons, List.length_drop] at ih ⊢
      have h1 : s.length - width + width - 1 = s.length - 1 := by omega
      rw [h1] at ih
      have h2 : s.length + width - 1 = (s.length - 1) + width := by omega
      rw [h2, Nat.add_div_right _ hw]
      have h3 : 1 ≤ (s.length - 1) / width :=
        (Nat.one_le_div_iff hw).mpr (by omega)
      rw [ih]
      omega

/-- C4: `wrap(text, width)` for `width > 0` reconstructs the text exactly when
its visual lines are re-joined (explicit-break segments re-joined with the
break character), every visual line is at most `width` scalar values long, a
single segment of `L` scalar values yields exactly `max(1, ceil(L / width))`
visual lines, and an empty segment yields one empty visual line. -/
theorem C4_wrap_spec (text : List Char) (width : Nat) (hw : 0 < width) :
    List.intercalate ['\n']
        ((text.splitOn '\n').map (fun seg => (wrapSeg width seg).flatten)) = text ∧
    (∀ l ∈ wrap text width, l.length ≤ width) ∧
    (∀ seg : List Char, (wrapSeg width seg).length = max 1 ((seg.length + width - 1) / width)) ∧
    wrapSeg width [] = [[]] := by
  refine ⟨?_, ?_, fun seg => wrapSeg_count width hw seg, ?_⟩
  · have hfl : (fun seg => (wrapSeg width seg).flatten) = (id : List Char → List Char) :=
      funext (wrapSeg_flatten width)
    rw [hfl, List.map_id, List.intercalate_splitOn]
  · intro l hl
    rw [wrap, List.mem_flatten] at hl
    obtain ⟨L, hL, hlL⟩ := hl
    rw [List.mem_map] at hL
    obtain ⟨seg, _, rfl⟩ := hL
    exact wrapSeg_line_le width hw seg l hlL
  · rw [wrapSeg]
    simp

/-- C4 witness: the wrap specification instantiated at `"ab\ncd"` with
width 2. -/
theorem C4_wrap_spec_witness :
    0 < 2 ∧
      (List.intercalate ['\n']
          (("ab\ncd".toList.splitOn '\n').map (fun seg => (wrapSeg 2 seg).flatten))
            = "ab\ncd".toList ∧
        (∀ l ∈ wrap "ab\ncd".toList 2, l.length ≤ 2) ∧
        (∀ seg : List Char, (wrapSeg 2 seg).length = max 1 ((seg.length + 2 - 1) / 2)) ∧
        wrapSeg 2 [] = [[]]) :=
  ⟨by decide, C4_wrap_spec "ab\ncd".toList 2 (by decide)⟩

/-- C1: starting from `InputArea::new` and applying any sequence of
`insert_char`, `backspace`, `cursor_left`, `cursor_right`, `cursor_up`,
`cursor_down`, `newline`, `submit`, the cursor is a valid UTF-8 scalar-value
boundary of the buffer and `0 ≤ cursor ≤ len(buffer)` in bytes. -/
theorem C1_cursor_boundary_invariant (ops : List Op) :
    CursorOK (ops.foldl applyOp InputArea.new) ∧
      (ops.foldl applyOp InputArea.new).cursor
        ≤ byteLen (ops.foldl applyOp InputArea.new).buffer := by
  have h := cursorOK_foldl ops cursorOK_new
  exact ⟨h, cursorOK_le h⟩

/-- C5: on any state satisfying the cursor invariant (every state reachable
through the API, the fields being private in the source), `insert_char(ch)`
followed by `backspace()` restores the prior `(buffer, cursor)` state exactly,
for any scalar value `ch` including multi-byte ones. -/
theorem C5_insert_then_backspace (a : InputArea) (ch : Char) (h : CursorOK a) :
    (a.insert_char ch).backspace = a := by
  obtain ⟨buf, cur, off⟩ := a
  obtain ⟨k, hk, hc⟩ := h
  simp only at hk hc
  have hcle : cur ≤ byteLen buf := by
    rw [hc]
    exact byteLen_take_le buf k
  have hmin : min cur (byteLen buf) = cur := Nat.min_eq_left hcle
  have hidx : charIndexAt buf cur = k := by
    rw [hc, charIndexAt_byteLen_take, Nat.min_eq_left hk]
  have hlen : (buf.take k).length = k := by
    rw [List.length_take, Nat.min_eq_left hk]
  have hins : InputArea.insert_char ⟨buf, cur, off⟩ ch
      = ⟨buf.take k ++ ch :: buf.drop k, cur + utf8Len ch, off⟩ := by
    rw [InputArea.insert_char]
    simp only [hmin, hidx]
  rw [hins]
  have hBlen : (buf.take k ++ ch :: buf.drop k).length = buf.length + 1 := by
    simp only [List.length_append, List.length_cons, List.length_drop, hlen]
    omega
  have htakeB : (buf.take k ++ ch :: buf.drop k).take (k + 1) = buf.take k ++ [ch] := by
    conv_lhs => rw [show k + 1 = (buf.take k).length + 1 by rw [hlen]]
    rw [List.take_append]
    rfl
  have htakeBk : (buf.take k ++ ch :: buf.drop k).take k = buf.take k := by
    rw [List.take_append_of_le_length (by rw [hlen]), List.take_take]
    simp
  have hcur1 : cur + utf8Len ch = byteLen ((buf.take k ++ ch :: buf.drop k).take (k + 1)) := by
    rw [htakeB, byteLen_append, hc]
    simp [byteLen]
  have hpos : cur + utf8Len ch > 0 := by
    have := utf8Len_pos ch
    omega
  have hprev : InputArea.prevStart (buf.take k ++ ch :: buf.drop k) (cur + utf8Len ch) = cur := by
    rw [hcur1, prevStart_boundary _ (k + 1) (by omega) (by rw [hBlen]; omega)]
    rw [Nat.add_sub_cancel, htakeBk, ← hc]
  have hidxB : charIndexAt (buf.take k ++ ch :: buf.drop k) cur = k := by
    conv_lhs => rw [show cur = byteLen ((buf.take k ++ ch :: buf.drop k).take k) by
      rw [htakeBk, ← hc]]
    rw [charIndexAt_byteLen_take, hBlen, Nat.min_eq_left (by omega)]
  have hdropB : (buf.take k ++ ch :: buf.drop k).drop (k + 1) = buf.drop k := by
    conv_lhs => rw [show k + 1 = (buf.take k).length + 1 by rw [hlen]]
    rw [List.drop_append]
    rfl
  rw [InputArea.backspace]
  simp only [hprev, hidxB, hdropB]
  rw [if_pos hpos]
  simp only [htakeBk]
  rw [List.take_append_drop]

/-- C5 witness: the roundtrip applied at buffer `"h"`, cursor 1, with the
multi-byte scalar `'é'`. -/
theorem C5_insert_then_backspace_witness :
    CursorOK ⟨['h'], 1, 0⟩ ∧
      (InputArea.insert_char ⟨['h'], 1, 0⟩ 'é').backspace = ⟨['h'], 1, 0⟩ :=
  ⟨⟨1, by decide, by decide⟩,
    C5_insert_then_backspace ⟨['h'], 1, 0⟩ 'é' ⟨1, by decide, by decide⟩⟩

/-- C8: `submit()` returns the entire buffer content and resets the buffer to
empty and the cursor to 0; cursor moves and scrolls never change the buffer;
`insert_char` only adds (the prior buffer splits around the inserted scalar);
and the end-to-end example: typing `"hello world"`, a forced line break, then
`"hi"` submits `"hello world\nhi"`. -/
theorem C8_submit_returns_all_and_resets :
    (∀ a : InputArea, a.submit.1 = a.buffer ∧ a.submit.2.buffer = [] ∧ a.submit.2.cursor = 0) ∧
    (∀ a : InputArea, a.cursor_left.buffer = a.buffer ∧ a.cursor_right.buffer = a.buffer ∧
      a.cursor_up.buffer = a.buffer ∧ a.cursor_down.buffer = a.buffer ∧
      ∀ n, (a.scroll_up n).buffer = a.buffer ∧ (a.scroll_down n).buffer = a.buffer) ∧
    (∀ (a : InputArea) (ch : Char), ∃ l r, a.buffer = l ++ r ∧
      (a.insert_char ch).buffer = l ++ ch :: r) ∧
    ((("hello world".toList.foldl InputArea.insert_char InputArea.new).newline.insert_char 'h'
      |>.insert_char 'i').submit.1 = "hello world\nhi".toList) := by
  refine ⟨fun a => ⟨rfl, rfl, rfl⟩, fun a => ⟨?_, ?_, ?_, ?_, fun n => ⟨rfl, rfl⟩⟩,
    fun a ch => ?_, by decide⟩
  · rw [InputArea.cursor_left]
    split <;> rfl
  · rw [InputArea.cursor_right]
    split
    · split <;> rfl
    · rfl
  · simp only [InputArea.cursor_up]
    split_ifs <;> rfl
  · simp only [InputArea.cursor_down]
    split_ifs <;> rfl
  · exact ⟨a.buffer.take (charIndexAt a.buffer (min a.cursor (byteLen a.buffer))),
      a.buffer.drop (charIndexAt a.buffer (min a.cursor (byteLen a.buffer))),
      (List.take_append_drop _ _).symm, rfl⟩

theorem calcCursorPosAux_none_iff (display : List Char) :
    ∀ (b idx line col : Nat),
      calcCursorPosAux display b idx line col = none ↔
        ¬ ∃ k, k ≤ display.length ∧ idx = b + byteLen (display.take k) := by
  induction display with
  | nil =>
      intro b idx line col
      rw [calcCursorPosAux]
      constructor
      · intro hnone ⟨k, _, hk⟩
        simp only [List.take_nil, byteLen_nil, Nat.add_zero] at hk
        rw [hk, if_pos rfl] at hnone
        exact Option.some_ne_none _ hnone
      · intro hnb
        rw [if_neg]
        intro hbeq
        exact hnb ⟨0, by simp, by simp [hbeq, byteLen_nil]⟩
  | cons ch rest ih =>
      intro b idx line col
      rw [calcCursorPosAux]
      by_cases hbeq : b = idx
      · rw [if_pos hbeq]
        constructor
        · intro hsome
          exact absurd hsome (Option.some_ne_none _)
        · intro hnb
          exact absurd ⟨0, by simp, by simp [hbeq, byteLen_nil]⟩ hnb
      · rw [if_neg hbeq]
        have hstep : ∀ line' col',
            calcCursorPosAux rest (b + utf8Len ch) idx line' col' = none ↔
              ¬ ∃ k, k ≤ rest.length ∧ idx = (b + utf8Len ch) + byteLen (rest.take k) :=
          fun line' col' => ih (b + utf8Len ch) idx line' col'
        have hshift : (¬ ∃ k, k ≤ rest.length ∧ idx = (b + utf8Len ch) + byteLen (rest.take k)) ↔
            ¬ ∃ k, k ≤ (ch :: rest).length ∧ idx = b + byteLen ((ch :: rest).take k) := by
          constructor
          · intro hn ⟨k, hkle, hkeq⟩
            cases k with
            | zero =>
                simp only [List.take_zero, byteLen_nil, Nat.add_zero] at hkeq
                exact hbeq hkeq.symm
            | succ k' =>
                refine hn ⟨k', by simpa using hkle, ?_⟩
                simp only [List.take_succ_cons, byteLen_cons] at hkeq
                omega
          · intro hn ⟨k, hkle, hkeq⟩
            refine hn ⟨k + 1, by simpa using hkle, ?_⟩
            simp only [List.take_succ_cons, byteLen_cons]
            omega
        by_cases hch : ch = '\n'
        · rw [if_pos hch, hstep, hshift]
        · rw [if_neg hch, hstep, hshift]

theorem calculate_cursor_pos_none_iff (display : List Char) (idx : Nat) :
    calculate_cursor_pos display idx = none ↔
      ¬ ∃ k, k ≤ display.length ∧ idx = byteLen (display.take k) := by
  rw [calculate_cursor_pos, calcCursorPosAux_none_iff]
  simp

theorem utf8Len_gtSign : utf8Len '>' = 1 := rfl

theorem utf8Len_space : utf8Len ' ' = 1 := rfl

theorem nlExpand_flatMap_of_not_mem {l : List Char} (h : '\n' ∉ l) :
    l.flatMap nlExpand = l := by
  induction l with
  | nil => rfl
  | cons c rest ih =>
      simp only [List.mem_cons, not_or] at h
      rw [List.flatMap_cons, nlExpand, if_neg (fun hc => h.1 hc.symm), ih h.2]
      rfl

theorem byteLen_flatMap_nlExpand (l : List Char) :
    byteLen (l.flatMap nlExpand) = byteLen l + 2 * l.count '\n' := by
  induction l with
  | nil => rfl
  | cons c rest ih =>
      rw [List.flatMap_cons, byteLen_append, ih, byteLen_cons, List.count_cons]
      by_cases hc : c = '\n'
      · subst hc
        simp [nlExpand, byteLen_cons, byteLen_nil, List.count_cons, utf8Len_newline,
          utf8Len_gtSign, utf8Len_space]
        omega
      · simp [nlExpand, hc, byteLen_cons, byteLen_nil]
        omega

theorem count_nl_flatMap_nlExpand (l : List Char) :
    (l.flatMap nlExpand).count '\n' = l.count '\n' := by
  induction l with
  | nil => rfl
  | cons c rest ih =>
      rw [List.flatMap_cons, List.count_append, ih, List.count_cons]
      by_cases hc : c = '\n'
      · subst hc
        simp [nlExpand, List.count_cons]
        omega
      · simp [nlExpand, hc, List.count_cons]

theorem fullDisplay_append (pre suf : List Char) :
    fullDisplay (pre ++ suf) = fullDisplay pre ++ suf.flatMap nlExpand := by
  rw [fullDisplay, fullDisplay, List.flatMap_append]
  rfl

theorem byteLen_fullDisplay (buf : List Char) :
    byteLen (fullDisplay buf) = 2 + byteLen buf + 2 * buf.count '\n' := by
  rw [fullDisplay, byteLen_cons, byteLen_cons, byteLen_flatMap_nlExpand,
    utf8Len_gtSign, utf8Len_space]
  omega

theorem count_nl_fullDisplay (buf : List Char) :
    (fullDisplay buf).count '\n' = buf.count '\n' := by
  rw [fullDisplay, List.count_cons, List.count_cons, count_nl_flatMap_nlExpand]
  simp

theorem calcCursorLineAux_boundary (s : List Char) :
    ∀ (K b line : Nat), K ≤ s.length →
      calcCursorLineAux s b (b + byteLen (s.take K)) line = line + (s.take K).count '\n' := by
  induction s with
  | nil =>
      intro K b line _
      rw [calcCursorLineAux]
      simp
  | cons ch rest ih =>
      intro K b line hK
      cases K with
      | zero =>
          rw [calcCursorLineAux, if_pos (by simp [byteLen_nil])]
          simp
      | succ K' =>
          have hK' : K' ≤ rest.length := by
            simp only [List.length_cons] at hK
            omega
          have h1 : 1 ≤ utf8Len ch := utf8Len_pos ch
          rw [calcCursorLineAux,
            if_neg (by simp only [List.take_succ_cons, byteLen_cons]; omega)]
          simp only [List.take_succ_cons, byteLen_cons]
          have harith : b + (utf8Len ch + byteLen (rest.take K'))
              = (b + utf8Len ch) + byteLen (rest.take K') := by omega
          rw [harith, ih K' (b + utf8Len ch) _ hK']
          by_cases hch : ch = '\n'
          · subst hch
            simp [List.count_cons]
            omega
          · rw [if_neg hch]
            have : (ch == '\n') = false := by simpa using hch
            simp [List.count_cons, this]

theorem splitOn_nl_cons_nl (s : List Char) :
    ('\n' :: s).splitOn '\n' = [] :: s.splitOn '\n' := by
  simp [List.splitOn, List.splitOnP_cons]

theorem splitOn_nl_cons_ne {c : Char} (hc : c ≠ '\n') (s : List Char) :
    (c :: s).splitOn '\n' = (s.splitOn '\n').modifyHead (c :: ·) := by
  simp [List.splitOn, List.splitOnP_cons, hc]

theorem not_nl_mem_splitOn (s : List Char) :
    ∀ l ∈ s.splitOn '\n', '\n' ∉ l := by
  induction s with
  | nil =>
      intro l hl
      rw [List.splitOn_nil] at hl
      simp only [List.mem_singleton] at hl
      subst hl
      simp
  | cons c rest ih =>
      intro l hl
      by_cases hc : c = '\n'
      · subst hc
        rw [splitOn_nl_cons_nl] at hl
        rcases List.mem_cons.mp hl with rfl | hl
        · simp
        · exact ih l hl
      · rw [splitOn_nl_cons_ne hc] at hl
        obtain ⟨h, tl, hht⟩ : ∃ h tl, rest.splitOn '\n' = h :: tl := by
          cases hsp : rest.splitOn '\n' with
          | nil => exact absurd hsp (splitOn_nl_ne_nil rest)
          | cons h tl => exact ⟨h, tl, rfl⟩
        rw [hht] at hl
        simp only [List.modifyHead] at hl
        rcases List.mem_cons.mp hl with rfl | hl
        · intro hmem
          rcases List.mem_cons.mp hmem with heq | hmem
          · exact hc heq.symm
          · exact ih h (by rw [hht]; exact List.mem_cons_self h tl) hmem
        · exact ih l (by rw [hht]; exact List.mem_cons_of_mem h hl)

theorem mem_of_mem_splitOn {x : Char} {l s : List Char}
    (hl : l ∈ s.splitOn '\n') (hx : x ∈ l) : x ∈ s := by
  induction s generalizing l with
  | nil =>
      rw [List.splitOn_nil] at hl
      simp only [List.mem_singleton] at hl
      subst hl
      exact absurd hx (List.not_mem_nil x)
  | cons c rest ih =>
      by_cases hc : c = '\n'
      · subst hc
        rw [splitOn_nl_cons_nl] at hl
        rcases List.mem_cons.mp hl with rfl | hl
        · exact absurd hx (List.not_mem_nil x)
        · exact List.mem_cons_of_mem _ (ih hl hx)
      · rw [splitOn_nl_cons_ne hc] at hl
        obtain ⟨h, tl, hht⟩ : ∃ h tl, rest.splitOn '\n' = h :: tl := by
          cases hsp : rest.splitOn '\n' with
          | nil => exact absurd hsp (splitOn_nl_ne_nil rest)
          | cons h tl => exact ⟨h, tl, rfl⟩
        rw [hht] at hl
        simp only [List.modifyHead] at hl
        rcases List.mem_cons.mp hl with rfl | hl
        · rcases List.mem_cons.mp hx with rfl | hx
          · exact List.mem_cons_self _ _
          · exact List.mem_cons_of_mem _
              (ih (l := h) (by rw [hht]; exact List.mem_cons_self h tl) hx)
        · exact List.mem_cons_of_mem _
            (ih (by rw [hht]; exact List.mem_cons_of_mem h hl) hx)

theorem fullDisplay_intercalate (ls : List (List Char)) (hne : ls ≠ [])
    (hfree : ∀ l ∈ ls, '\n' ∉ l) :
    fullDisplay (List.intercalate ['\n'] ls)
      = List.intercalate ['\n'] (ls.map (fun l => '>' :: ' ' :: l)) := by
  induction ls with
  | nil => exact absurd rfl hne
  | cons l rest ih =>
      cases rest with
      | nil =>
          rw [intercalate_nl_single, List.map_singleton, intercalate_nl_single, fullDisplay,
            nlExpand_flatMap_of_not_mem (hfree l (List.mem_cons_self _ _))]
      | cons b t =>
          have hrec := ih (by simp) (fun l' hl' => hfree l' (List.mem_cons_of_mem l hl'))
          rw [intercalate_nl_cons₂]
          rw [List.map_cons, List.map_cons, intercalate_nl_cons₂]
          rw [List.map_cons] at hrec
          rw [← hrec]
          rw [fullDisplay, fullDisplay, List.flatMap_append,
            nlExpand_flatMap_of_not_mem (hfree l (List.mem_cons_self _ _)),
            List.flatMap_cons, nlExpand, if_pos rfl]
          simp

theorem stripTrailingCR_of_not_mem {l : List Char} (h : '\r' ∉ l) :
    stripTrailingCR l = l := by
  rw [stripTrailingCR]
  by_cases hl : l.getLast? = some '\r'
  · exfalso
    have hne : l ≠ [] := by
      intro h0
      rw [h0] at hl
      simp at hl
    rw [List.getLast?_eq_getLast l hne] at hl
    have hmem := List.getLast_mem hne
    rw [Option.some_inj.mp hl] at hmem
    exact h hmem
  · rw [if_neg hl]

/-- With a carriage-return-free buffer, `str::lines()` on `full_display` is
exactly the logical lines of the buffer, each with its `"> "` marker. -/
theorem rustLines_fullDisplay {buf : List Char} (hcr : '\r' ∉ buf) :
    rustLines (fullDisplay buf)
      = (buf.splitOn '\n').map (fun l => '>' :: ' ' :: l) := by
  have hfree := not_nl_mem_splitOn buf
  have hne := splitOn_nl_ne_nil buf
  have hfd : fullDisplay buf
      = List.intercalate ['\n'] ((buf.splitOn '\n').map (fun l => '>' :: ' ' :: l)) := by
    conv_lhs => rw [show buf = List.intercalate ['\n'] (buf.splitOn '\n') from
      (lineSplit_join buf).symm]
    exact fullDisplay_intercalate _ hne hfree
  have hmapfree : ∀ l ∈ (buf.splitOn '\n').map (fun l => '>' :: ' ' :: l), '\n' ∉ l := by
    intro l hl
    rw [List.mem_map] at hl
    obtain ⟨l₀, hl₀, rfl⟩ := hl
    intro hmem
    rcases List.mem_cons.mp hmem with heq | hmem
    · exact absurd heq.symm (by decide)
    · rcases List.mem_cons.mp hmem with heq | hmem
      · exact absurd heq.symm (by decide)
      · exact hfree l₀ hl₀ hmem
  have hmapne : (buf.splitOn '\n').map (fun l => '>' :: ' ' :: l) ≠ [] := by
    simpa using hne
  have hsplit : (fullDisplay buf).splitOn '\n'
      = (buf.splitOn '\n').map (fun l => '>' :: ' ' :: l) := by
    rw [hfd]
    exact List.splitOn_intercalate _ '\n' hmapfree hmapne
  rw [rustLines, if_neg (by rw [fullDisplay]; simp), hsplit]
  have hmapcr : ∀ l ∈ (buf.splitOn '\n').map (fun l => '>' :: ' ' :: l), '\r' ∉ l := by
    intro l hl
    rw [List.mem_map] at hl
    obtain ⟨l₀, hl₀, rfl⟩ := hl
    intro hmem
    rcases List.mem_cons.mp hmem with heq | hmem
    · exact absurd heq (by decide)
    · rcases List.mem_cons.mp hmem with heq | hmem
      · exact absurd heq (by decide)
      · exact hcr (mem_of_mem_splitOn hl₀ hmem)
  have hstrip : ((buf.splitOn '\n').map (fun l => '>' :: ' ' :: l)).dropLast.map stripTrailingCR
      = ((buf.splitOn '\n').map (fun l => '>' :: ' ' :: l)).dropLast := by
    rw [show ((buf.splitOn '\n').map (fun l => '>' :: ' ' :: l)).dropLast
        = ((buf.splitOn '\n').map (fun l => '>' :: ' ' :: l)).dropLast.map id from
      (List.map_id _).symm]
    rw [List.map_map]
    exact List.map_congr_left
      (fun l hl => stripTrailingCR_of_not_mem (hmapcr l (List.mem_of_mem_dropLast hl)))
  have hlast : ((buf.splitOn '\n').map (fun l => '>' :: ' ' :: l)).getLastD []
      = ((buf.splitOn '\n').map (fun l => '>' :: ' ' :: l)).getLast hmapne := by
    rw [List.getLastD_eq_getLast?, List.getLast?_eq_getLast _ hmapne]
    rfl
  have hlastne : ((buf.splitOn '\n').map (fun l => '>' :: ' ' :: l)).getLastD [] ≠ [] := by
    rw [hlast]
    have hmem := List.getLast_mem hmapne
    rw [List.mem_map] at hmem
    obtain ⟨l₀, _, heq⟩ := hmem
    rw [← heq]
    simp
  show (List.map stripTrailingCR
        ((List.map (fun l => '>' :: ' ' :: l) (List.splitOn '\n' buf)).dropLast)
      ++ if (List.map (fun l => '>' :: ' ' :: l) (List.splitOn '\n' buf)).getLastD [] = []
         then []
         else [(List.map (fun l => '>' :: ' ' :: l) (List.splitOn '\n' buf)).getLastD []])
    = List.map (fun l => '>' :: ' ' :: l) (List.splitOn '\n' buf)
  rw [if_neg hlastne, hstrip, hlast]
  exact List.dropLast_append_getLast hmapne

theorem prefixed_lines_nl_free (buf : List Char) :
    ∀ l ∈ (buf.splitOn '\n').map (fun l => '>' :: ' ' :: l), '\n' ∉ l := by
  intro l hl
  rw [List.mem_map] at hl
  obtain ⟨l₀, hl₀, rfl⟩ := hl
  intro hmem
  rcases List.mem_cons.mp hmem with heq | hmem
  · exact absurd heq.symm (by decide)
  · rcases List.mem_cons.mp hmem with heq | hmem
    · exact absurd heq.symm (by decide)
    · exact not_nl_mem_splitOn buf l₀ hl₀ hmem

/-- Every byte-boundary prefix of a `'\n'`-joined line list lands inside one
of the lines: it decomposes as a `(line, column)` position, and its line index
equals the number of `'\n'` in the prefix. -/
theorem intercalate_take_decompose (ls : List (List Char)) :
    ∀ k : Nat, (∀ l ∈ ls, '\n' ∉ l) → ls ≠ [] →
      k ≤ (List.intercalate ['\n'] ls).length →
      ∃ j, j < ls.length ∧ ∃ m, m ≤ (ls.getD j []).length ∧
        byteLen ((List.intercalate ['\n'] ls).take k)
          = lineStart ls j + byteLen ((ls.getD j []).take m) ∧
        ((List.intercalate ['\n'] ls).take k).count '\n' = j := by
  induction ls with
  | nil =>
      intro k _ hne _
      exact absurd rfl hne
  | cons l rest ih =>
      intro k hfree _ hk
      cases rest with
      | nil =>
          rw [intercalate_nl_single] at hk ⊢
          refine ⟨0, by simp, k, ?_, ?_, ?_⟩
          · simpa using hk
          · simp [lineStart]
          · exact List.count_eq_zero.mpr
              (fun hmem => hfree l (List.mem_cons_self _ _) (List.mem_of_mem_take hmem))
      | cons b t =>
          rw [intercalate_nl_cons₂] at hk ⊢
          by_cases hkl : k ≤ l.length
          · have htake : (l ++ '\n' :: List.intercalate ['\n'] (b :: t)).take k = l.take k :=
              List.take_append_of_le_length hkl
            refine ⟨0, by simp, k, by simpa using hkl, ?_, ?_⟩
            · rw [htake]
              simp [lineStart]
            · rw [htake]
              exact List.count_eq_zero.mpr
                (fun hmem => hfree l (List.mem_cons_self _ _) (List.mem_of_mem_take hmem))
          · push_neg at hkl
            have hk' : k - (l.length + 1) ≤ (List.intercalate ['\n'] (b :: t)).length := by
              rw [List.length_append, List.length_cons] at hk
              omega
            obtain ⟨j', hj', m, hm, heqB, heqC⟩ := ih (k - (l.length + 1))
              (fun l' hl' => hfree l' (List.mem_cons_of_mem l hl')) (by simp) hk'
            have htake : (l ++ '\n' :: List.intercalate ['\n'] (b :: t)).take k
                = l ++ '\n' :: (List.intercalate ['\n'] (b :: t)).take (k - (l.length + 1)) := by
              conv_lhs => rw [show k = l.length + (1 + (k - (l.length + 1))) by omega]
              rw [List.take_append, Nat.add_comm 1 (k - (l.length + 1)), List.take_succ_cons]
            refine ⟨j' + 1, by simpa using hj', m, by simpa using hm, ?_, ?_⟩
            · rw [htake, byteLen_append, byteLen_cons, utf8Len_newline, heqB]
              have hls : lineStart (l :: b :: t) (j' + 1)
                  = (byteLen l + 1) + lineStart (b :: t) j' := by
                simp only [lineStart, List.take_succ_cons, List.map_cons, List.sum_cons]
              rw [hls, List.getD_cons_succ]
              omega
            · rw [htake, List.count_append, List.count_cons, heqC]
              have hcl : l.count '\n' = 0 :=
                List.count_eq_zero.mpr (hfree l (List.mem_cons_self _ _))
              rw [hcl]
              simp

theorem lineStart_add (ls : List (List Char)) (p q : Nat) :
    lineStart ls (p + q) = lineStart ls p + lineStart (ls.drop p) q := by
  rw [lineStart, lineStart, lineStart, List.take_add, List.map_append, List.sum_append]

theorem lineStart_take (ls : List (List Char)) (s q : Nat) (h : q ≤ s) :
    lineStart (ls.take s) q = lineStart ls q := by
  rw [lineStart, lineStart, List.take_take, Nat.min_eq_left h]

theorem getD_take_drop (ls : List (List Char)) (o s j : Nat) (hj : j < s)
    (hlen : o + j < ls.length) :
    ((ls.drop o).take s).getD j [] = ls.getD (o + j) [] := by
  have h1 : j < ((ls.drop o).take s).length := by
    rw [List.length_take, List.length_drop]
    omega
  rw [List.getD_eq_getElem _ _ h1, List.getD_eq_getElem _ _ hlen,
    List.getElem_take, List.getElem_drop]

theorem fullDisplay_take_front (buf : List Char) (k : Nat) :
    (fullDisplay buf).take (fullDisplay (buf.take k)).length = fullDisplay (buf.take k) := by
  have hsplit : fullDisplay buf = fullDisplay (buf.take k) ++ (buf.drop k).flatMap nlExpand := by
    conv_lhs =>
      rw [show buf = buf.take k ++ buf.drop k from (List.take_append_drop k buf).symm]
    exact fullDisplay_append _ _
  rw [hsplit]
  exact List.take_left _ _

theorem calculate_display_index_boundary (a : InputArea) {k : Nat}
    (hk : k ≤ a.buffer.length) (hcur : a.cursor = byteLen (a.buffer.take k)) :
    a.calculate_display_index = byteLen (fullDisplay (a.buffer.take k)) := by
  simp only [InputArea.calculate_display_index]
  rw [hcur, charIndexAt_byteLen_take, Nat.min_eq_left hk, byteLen_fullDisplay]
  omega

theorem render_window (j T off M : Nat) (hM : 0 < M) (hj : j < T) :
    min (if j < off then j else if j ≥ off + M then j - (M - 1) else off) (T - M) ≤ j ∧
    j < min (if j < off then j else if j ≥ off + M then j - (M - 1) else off) (T - M) + M ∧
    min (if j < off then j else if j ≥ off + M then j - (M - 1) else off) (T - M) ≤ T - M := by
  split_ifs <;> omega

/-- If the display index of an input-area state points at column-byte `m` of
visible line `j`, and line `j` lies inside the visible window, the cursor
projection of `ChatApp::render` produces a position. -/
theorem appCursorPos_isSome (b : InputArea) (j m : Nat)
    (hoff : b.offset ≤ (rustLines (fullDisplay b.buffer)).length - 10)
    (hjlt : j < (rustLines (fullDisplay b.buffer)).length)
    (hoj : b.offset ≤ j)
    (hjw : j < b.offset + 10)
    (hm : m ≤ ((rustLines (fullDisplay b.buffer)).getD j []).length)
    (hdi : b.calculate_display_index
        = lineStart (rustLines (fullDisplay b.buffer)) j
          + byteLen (((rustLines (fullDisplay b.buffer)).getD j []).take m)) :
    (appCursorPos b).isSome = true := by
  simp only [appCursorPos]
  rw [Nat.min_eq_left hoff]
  have hgd : (((rustLines (fullDisplay b.buffer)).drop b.offset).take
        (min (b.offset + 10) (rustLines (fullDisplay b.buffer)).length - b.offset)).getD
        (j - b.offset) []
      = (rustLines (fullDisplay b.buffer)).getD j [] := by
    rw [getD_take_drop _ _ _ _ (by omega) (by omega)]
    congr 1
    omega
  have hlsv : lineStart (((rustLines (fullDisplay b.buffer)).drop b.offset).take
        (min (b.offset + 10) (rustLines (fullDisplay b.buffer)).length - b.offset)) (j - b.offset)
      = lineStart ((rustLines (fullDisplay b.buffer)).drop b.offset) (j - b.offset) :=
    lineStart_take _ _ _ (by omega)
  have hlsadd : lineStart (rustLines (fullDisplay b.buffer)) j
      = lineStart (rustLines (fullDisplay b.buffer)) b.offset
        + lineStart ((rustLines (fullDisplay b.buffer)).drop b.offset) (j - b.offset) := by
    conv_lhs => rw [show j = b.offset + (j - b.offset) by omega]
    exact lineStart_add _ _ _
  obtain ⟨kb, hkble, hkbeq⟩ := intercalate_boundary
    (((rustLines (fullDisplay b.buffer)).drop b.offset).take
      (min (b.offset + 10) (rustLines (fullDisplay b.buffer)).length - b.offset))
    (j - b.offset) m
    (by
      rw [List.length_take, List.length_drop]
      omega)
    (by rw [hgd]; exact hm)
  rw [hgd, hlsv] at hkbeq
  have hls0 : (((rustLines (fullDisplay b.buffer)).take b.offset).map
      (fun l => byteLen l + 1)).sum = lineStart (rustLines (fullDisplay b.buffer)) b.offset := rfl
  rw [Option.isSome_iff_ne_none]
  intro hnone
  rw [calculate_cursor_pos_none_iff] at hnone
  refine hnone ⟨kb, hkble, ?_⟩
  rw [hdi, hls0]
  omega

/-- C2 counterexample: after a manual `scroll_up(1)` (auto-follow
disengaged), appending another message re-engages auto-follow —
`add_message` sets the flag unconditionally — and the next render therefore
jumps the view to the new bottom (offset 15 for 20 total lines and height 5)
instead of leaving it unmoved. -/
theorem C2_append_when_disengaged_reengages :
    ((((ChatArea.new.add_message ⟨[], []⟩).scroll_up 1).add_message ⟨[], []⟩).autoScroll
        = true) ∧
      chatRenderOffset 20 5
        ((((ChatArea.new.add_message ⟨[], []⟩).scroll_up 1).add_message ⟨[], []⟩).offset)
        ((((ChatArea.new.add_message ⟨[], []⟩).scroll_up 1).add_message ⟨[], []⟩).autoScroll)
        = 15 := by
  constructor <;> rfl

/-- C2 (amended): appending keeps an engaged view following the bottom —
the next render recomputes the offset to the new bottom — but `add_message`
sets `auto_scroll` unconditionally, so appending after a manual scroll-up
also re-engages auto-follow and the next render jumps to the new bottom,
rather than leaving the view unmoved. -/
theorem C2_append_reengages_auto_follow (c : ChatArea) (msg : ChatMessage)
    (totalLines visibleHeight : Nat) :
    (c.add_message msg).autoScroll = true ∧
      (c.add_message msg).offset = c.offset ∧
      chatRenderOffset totalLines visibleHeight (c.add_message msg).offset
          (c.add_message msg).autoScroll
        = totalLines - visibleHeight := by
  refine ⟨rfl, rfl, ?_⟩
  simp [chatRenderOffset, ChatArea.add_message]

/-- C3 counterexample: `InputArea::scroll_down` does not clamp at all — from
the fresh input area (one visual line, visible capacity 10, so
`max_scroll = 0`), `scroll_down(5)` leaves the offset at 5, outside
`[0, max_scroll] = [0, 0]`. -/
theorem C3_input_scroll_down_unclamped :
    (InputArea.new.scroll_down 5).offset = 5 ∧
      (rustLines (fullDisplay (InputArea.new.scroll_down 5).buffer)).length
          - MAX_DISPLAY_LINES = 0 := by
  constructor <;> decide

/-- C3 (amended): `scroll_up` never increases an offset (and clamps at 0 by
saturation); `ChatArea::scroll_down` clamps only to
`max(0, content_length - 1)`; `InputArea::scroll_down` is unclamped plain
addition; the `[0, max_scroll]` bound with `max_scroll =
max(0, total_visual_lines - visible_capacity)` is instead (re-)established by
each render pass, which clamps the offset. -/
theorem C3_scroll_offset_bounds :
    (∀ (c : ChatArea) (n : Nat), (c.scroll_up n).offset ≤ c.offset ∧
        (c.scroll_down n).offset ≤ c.messageLines.length - 1 ∧
        (c.add_message ⟨[], []⟩).offset = c.offset) ∧
    (∀ (a : InputArea) (n : Nat), (a.scroll_up n).offset ≤ a.offset ∧
        (a.scroll_down n).offset = a.offset + n) ∧
    (∀ (totalLines visibleHeight offset : Nat) (autoScroll : Bool),
        chatRenderOffset totalLines visibleHeight offset autoScroll
          ≤ totalLines - visibleHeight) ∧
    (∀ a : InputArea, inputRenderOffset a
        ≤ (rustLines (fullDisplay a.buffer)).length - MAX_DISPLAY_LINES) := by
  refine ⟨fun c n => ⟨Nat.sub_le _ _, Nat.min_le_right _ _, rfl⟩,
    fun a n => ⟨Nat.sub_le _ _, rfl⟩,
    fun totalLines visibleHeight offset autoScroll => Nat.min_le_right _ _,
    fun a => Nat.min_le_right _ _⟩

/-- C6 counterexample: a buffer of five `'é'` (5 scalar values, 10 UTF-8
bytes) at width 9 (effective width 5): the source counts bytes and returns
`ceil(10/5) + 2 = 4`, while the claim's per-scalar-value formula yields
`ceil(5/5) + 2 = 3`. -/
theorem C6_display_lines_counts_bytes :
    InputArea.calculate_display_lines ⟨List.replicate 5 'é', 0, 0⟩ 9 = 4 ∧
      calculate_display_lines_spec ⟨List.replicate 5 'é', 0, 0⟩ 9 = 3 := by
  constructor <;> decide

/-- C6 (amended): `calculate_display_lines` returns 2 whenever `width - 4`
leaves no room, and otherwise `min(total, 10) + 2` where `total` sums
`max(1, ceil(L / (width - 4)))` over the explicit-break logical lines with
`L` the line's length in UTF-8 **bytes** (not scalar values); the result is
always between 2 and 12; the ASCII examples hold: an empty buffer at width 14
gives 3 and `"hello world"` at width 14 gives 4. -/
theorem C6_display_lines_formula :
    (∀ (a : InputArea) (width : Nat), width ≤ 4 → a.calculate_display_lines width = 2) ∧
    (∀ (a : InputArea) (width : Nat), 4 < width →
        a.calculate_display_lines width
          = min (((lineSplit a.buffer).map
                (fun line => max ((byteLen line + (width - 4) - 1) / (width - 4)) 1)).sum)
              MAX_DISPLAY_LINES + 2) ∧
    (∀ (a : InputArea) (width : Nat),
        2 ≤ a.calculate_display_lines width ∧ a.calculate_display_lines width ≤ 12) ∧
    InputArea.calculate_display_lines ⟨[], 0, 0⟩ 14 = 3 ∧
    InputArea.calculate_display_lines ⟨"hello world".toList, 0, 0⟩ 14 = 4 := by
  refine ⟨?_, ?_, ?_, by decide, by decide⟩
  · intro a width hw
    rw [InputArea.calculate_display_lines]
    rw [if_pos (show width - 4 = 0 by omega)]
  · intro a width hw
    rw [InputArea.calculate_display_lines]
    rw [if_neg (show ¬ (width - 4 = 0) by omega)]
  · intro a width
    rw [InputArea.calculate_display_lines]
    split
    · omega
    · dsimp only [MAX_DISPLAY_LINES]
      omega

/-- C6 witness: the display-height formula instantiated at widths 4 and 14
on the one-character buffer `"x"`. -/
theorem C6_display_lines_formula_witness :
    ((4 : Nat) ≤ 4 ∧ InputArea.calculate_display_lines ⟨['x'], 0, 0⟩ 4 = 2) ∧
      (4 < 14 ∧ InputArea.calculate_display_lines ⟨['x'], 0, 0⟩ 14
        = min (((lineSplit (['x'] : List Char)).map
            (fun line => max ((byteLen line + (14 - 4) - 1) / (14 - 4)) 1)).sum)
          MAX_DISPLAY_LINES + 2) :=
  ⟨⟨by decide, C6_display_lines_formula.1 ⟨['x'], 0, 0⟩ 4 (by decide)⟩,
    ⟨by decide, C6_display_lines_formula.2.1 ⟨['x'], 0, 0⟩ 14 (by decide)⟩⟩

/-- C7 counterexample: with 5 cached visual lines and a visible capacity of
3, `scroll_down(10)` clamps the offset to `content_length - 1 = 4`, not to
the claim's `max(0, total - capacity) = 2`. -/
theorem C7_scroll_down_ignores_capacity :
    (((⟨[], [(0, 0), (0, 1), (0, 2), (0, 3), (0, 4)], 0, false⟩ : ChatArea).scroll_down
        10).offset = 4) ∧
      ((scroll_down_spec ⟨[], [(0, 0), (0, 1), (0, 2), (0, 3), (0, 4)], 0, false⟩ 3
        10).offset = 2) := by
  constructor <;> rfl

/-- C7 (amended): `scroll_up(n)` always sets `auto_follow` to false, even at
the top or with `n = 0`; `scroll_down(n)` clamps the offset to
`max(0, content_length - 1)` — the cached line count minus one, independent
of any visible capacity — and its `auto_follow` ends up true exactly when the
clamped offset equals that bound or the flag was already set (the flag is set
on landing there and left unchanged otherwise). -/
theorem C7_scroll_up_down_auto_follow (c : ChatArea) (n : Nat) :
    (c.scroll_up n).autoScroll = false ∧
      (c.scroll_down n).offset = min (c.offset + n) (c.messageLines.length - 1) ∧
      ((c.scroll_down n).autoScroll = true ↔
        ((c.scroll_down n).offset = c.messageLines.length - 1 ∨ c.autoScroll = true)) := by
  refine ⟨rfl, rfl, ?_⟩
  rw [ChatArea.scroll_down]
  simp only
  split
  · simp_all
  · simp_all

/-- C9 counterexample: the `ChatApp` state reached by the key presses
`'\r'`, Shift+Enter, `'é'` (buffer `"\r\né"`, cursor at the end) renders with
no cursor position: `str::lines()` strips the `"\r\n"` pair, so the adjusted
display index (8) falls one byte past the materialized display slice
(7 bytes), and `calculate_cursor_pos` returns no position for the input
viewport even though the cursor's line is in view. -/
theorem C9_crlf_loses_cursor :
    appRenderCursor (([⟨KeyCode.char '\r', ⟨false, false⟩, KeyEventKind.press⟩,
        ⟨KeyCode.enter, ⟨true, false⟩, KeyEventKind.press⟩,
        ⟨KeyCode.char 'é', ⟨false, false⟩, KeyEventKind.press⟩] : List KeyEvent).foldl
          ChatApp.on_key ChatApp.new).input_area = none := by
  decide

/-- C9 (amended): `calculate_cursor_pos` returns no position exactly when the
target display index is not a character boundary of the materialized display
slice; and for every input-area state satisfying the cursor invariant whose
buffer contains no carriage return (a CR immediately before a line break is
re-split by `str::lines()` and breaks the byte accounting), the render pass
always produces a cursor position. -/
theorem C9_cursor_projection :
    (∀ (display : List Char) (idx : Nat),
        calculate_cursor_pos display idx = none ↔
          ¬ ∃ k, k ≤ display.length ∧ idx = byteLen (display.take k)) ∧
    (∀ a : InputArea, CursorOK a → '\r' ∉ a.buffer →
        (appRenderCursor a).isSome = true) := by
  refine ⟨calculate_cursor_pos_none_iff, ?_⟩
  intro a hok hcr
  obtain ⟨kc, hkc, hcur⟩ := hok
  have hRL := rustLines_fullDisplay hcr
  have hlsfree := prefixed_lines_nl_free a.buffer
  have hlsne : (a.buffer.splitOn '\n').map (fun l => '>' :: ' ' :: l) ≠ [] := by
    simpa using splitOn_nl_ne_nil a.buffer
  have hfdint : fullDisplay a.buffer
      = List.intercalate ['\n'] ((a.buffer.splitOn '\n').map (fun l => '>' :: ' ' :: l)) := by
    conv_lhs =>
      rw [show a.buffer = List.intercalate ['\n'] (a.buffer.splitOn '\n') from
        (lineSplit_join a.buffer).symm]
    exact fullDisplay_intercalate _ (splitOn_nl_ne_nil a.buffer) (not_nl_mem_splitOn a.buffer)
  have hKle : (fullDisplay (a.buffer.take kc)).length ≤ (fullDisplay a.buffer).length := by
    conv_rhs =>
      rw [show fullDisplay a.buffer
          = fullDisplay (a.buffer.take kc) ++ (a.buffer.drop kc).flatMap nlExpand from by
        conv_lhs =>
          rw [show a.buffer = a.buffer.take kc ++ a.buffer.drop kc from
            (List.take_append_drop kc a.buffer).symm]
        exact fullDisplay_append _ _]
    rw [List.length_append]
    omega
  have hdi0 : a.calculate_display_index
      = byteLen ((fullDisplay a.buffer).take (fullDisplay (a.buffer.take kc)).length) := by
    rw [fullDisplay_take_front]
    exact calculate_display_index_boundary a hkc hcur
  obtain ⟨j, hjlt, m, hm, hB, hC⟩ := intercalate_take_decompose
    ((a.buffer.splitOn '\n').map (fun l => '>' :: ' ' :: l))
    (fullDisplay (a.buffer.take kc)).length hlsfree hlsne (by rw [← hfdint]; exact hKle)
  rw [← hfdint] at hB hC
  have hCL : calculate_cursor_line (fullDisplay a.buffer) a.calculate_display_index = j := by
    rw [calculate_cursor_line, hdi0]
    have hb := calcCursorLineAux_boundary (fullDisplay a.buffer)
      (fullDisplay (a.buffer.take kc)).length 0 0 hKle
    rw [Nat.zero_add] at hb
    rw [hb, Nat.zero_add]
    exact hC
  have hjT : j < (rustLines (fullDisplay a.buffer)).length := by
    rw [hRL]
    exact hjlt
  have hwin := render_window j (rustLines (fullDisplay a.buffer)).length a.offset
    MAX_DISPLAY_LINES (by rw [MAX_DISPLAY_LINES]; omega) hjT
  have hro : inputRenderOffset a
      = min (if j < a.offset then j
          else if j ≥ a.offset + MAX_DISPLAY_LINES then j - (MAX_DISPLAY_LINES - 1)
          else a.offset)
        ((rustLines (fullDisplay a.buffer)).length - MAX_DISPLAY_LINES) := by
    simp only [inputRenderOffset]
    rw [hCL]
  obtain ⟨hw1, hw2, hw3⟩ := hwin
  rw [← hro] at hw1 hw2 hw3
  show (appCursorPos { a with offset := inputRenderOffset a }).isSome = true
  refine appCursorPos_isSome { a with offset := inputRenderOffset a } j m ?_ ?_ ?_ ?_ ?_ ?_
  · show inputRenderOffset a ≤ (rustLines (fullDisplay a.buffer)).length - 10
    rw [hro]
    exact Nat.min_le_right _ _
  · exact hjT
  · exact hw1
  · exact hw2
  · show m ≤ ((rustLines (fullDisplay a.buffer)).getD j []).length
    rw [hRL]
    exact hm
  · show a.calculate_display_index
      = lineStart (rustLines (fullDisplay a.buffer)) j
        + byteLen (((rustLines (fullDisplay a.buffer)).getD j []).take m)
    rw [hRL, hdi0]
    exact hB

/-- C9 witness: the cursor-projection guarantee instantiated at the state
with buffer `"a\nb"` and the cursor at its end. -/
theorem C9_cursor_projection_witness :
    CursorOK ⟨['a', '\n', 'b'], 3, 0⟩ ∧ '\r' ∉ (['a', '\n', 'b'] : List Char) ∧
      (appRenderCursor ⟨['a', '\n', 'b'], 3, 0⟩).isSome = true :=
  ⟨⟨3, by decide, by decide⟩, by decide,
    C9_cursor_projection.2 ⟨['a', '\n', 'b'], 3, 0⟩ ⟨3, by decide, by decide⟩ (by decide)⟩

/-- C10: the quit flag becomes true exactly on a key-press event carrying the
`CONTROL` modifier whose code is `Esc` or `Char('c')` (the guard covers both
patterns of the or-arm); plain `Esc`, or any other key without `CONTROL`,
leaves `should_quit` as it was. -/
theorem C10_quit_only_on_ctrl (app : ChatApp) (key : KeyEvent) :
    (app.on_key key).should_quit = true ↔
      (app.should_quit = true ∨
        (key.kind = KeyEventKind.press ∧ key.modifiers.control = true ∧
          (key.code = KeyCode.esc ∨ key.code = KeyCode.char 'c'))) := by
  obtain ⟨code, ⟨shift, ctrl⟩, kind⟩ := key
  cases kind <;> cases code <;>
    simp only [ChatApp.on_key] <;>
    first
      | (split_ifs <;> simp_all)
      | simp_all

end TuiChat
